import Mathlib

/-!
Verification of the history-to-branch projection engine of hg2git
(`hg-to-git.py`, `hg_reader.py`, `parse-hg-repo.py`, `project_tree.py`)
against its natural-language specification.

Byte strings of the Python sources are modelled as `List Char` (the data the
claims touch is ASCII; line splitting is modelled on LF, the only separator
appearing in the inputs under study).  Python functions become Lean
functions; the few regular expressions the code applies to its inputs are
translated into equivalent explicit scanners, each documented with the regex
it implements.
-/

namespace hg2git

/-- LF, the line separator of the modelled byte strings. -/
def nl : Char := Char.ofNat 10

/-- The backslash character. -/
def chBsl : Char := Char.ofNat 92

/-- The hash character which opens an `.hgignore` comment. -/
def chHash : Char := Char.ofNat 35

/-- The left and right curly brace characters (`re.search(rb'\x7b|\x7d', glob)`
in `hgignore_to_gitignore` looks for them). -/
def chLbr : Char := Char.ofNat 123

/-- Right curly brace. -/
def chRbr : Char := Char.ofNat 125

/-- Concatenated map, `[y for x in l for y in f x]`. -/
def catMap (f : α → List β) : List α → List β
  | [] => []
  | x :: xs => f x ++ catMap f xs

/-- Python `sep.join(lines)`. -/
def joinl (sep : List Char) : List (List Char) → List Char
  | [] => []
  | [x] => x
  | x :: xs => x ++ sep ++ joinl sep xs

/-- Splitting on one separator character, keeping empty pieces
(`"a\nb" ↦ ["a","b"]`, `"a\n" ↦ ["a",""]`). -/
def splitSep (sep : Char) : List Char → List (List Char)
  | [] => [[]]
  | c :: rest =>
    if c = sep then [] :: splitSep sep rest
    else
      match splitSep sep rest with
      | [] => [[c]]
      | l :: ls => (c :: l) :: ls

/-- Python `bytes.splitlines` restricted to LF: the empty string yields no
lines and a trailing newline yields no extra empty line. -/
def splitlines (s : List Char) : List (List Char) :=
  match s with
  | [] => []
  | _ =>
    if (splitSep nl s).getLast? = some [] then (splitSep nl s).dropLast
    else splitSep nl s

/-- Python `bytes.isspace` test for one character, as `bytes.strip` uses it. -/
def pySpace (c : Char) : Bool :=
  c == ' ' || c == Char.ofNat 9 || c == nl || c == Char.ofNat 13 ||
    c == Char.ofNat 11 || c == Char.ofNat 12

/-- Python `bytes.strip()`. -/
def pyStrip (s : List Char) : List Char :=
  ((s.dropWhile pySpace).reverse.dropWhile pySpace).reverse

/-- Python `s.removesuffix(suf)`. -/
def removeSuf (suf s : List Char) : List Char :=
  if suf.isSuffixOf s then s.take (s.length - suf.length) else s

/-- Maximal munch of `re1`'s first group `(?:[^\\#]|\\.)*`: consume characters
other than backslash and hash, or a backslash together with the following
character; stop at an unescaped hash or at a lone trailing backslash.
Returns (group, rest of the line). -/
def re1Munch : List Char → List Char × List Char
  | [] => ([], [])
  | c :: rest =>
    if c = chBsl then
      match rest with
      | [] => ([], [c])
      | d :: rest2 =>
        match re1Munch rest2 with
        | (b, r) => (c :: d :: b, r)
    else if c = chHash then ([], c :: rest)
    else
      match re1Munch rest with
      | (b, r) => (c :: b, r)

/-- `re1.fullmatch(line)` for `re1 = ((?:[^\\#]|\\.)*)(\s*#.*)?`: the greedy
first group leaves a rest that is empty, starts with `#`, or is a lone
backslash; only in the last case does the fullmatch fail (backtracking cannot
rescue it, because a `#` demanded by the second group would have ended the
first group earlier).  `none` models a failed fullmatch; a missing comment
group is returned as the empty string, exactly as the caller substitutes
`b''` for `None`. -/
def re1Fullmatch (line : List Char) : Option (List Char × List Char) :=
  match re1Munch line with
  | (body, []) => some (body, [])
  | (body, c :: rest) =>
    if c = chHash then some (body, c :: rest) else none

/-- `re2.match(glob)` for
`re2 = (glob|rootglob|re|regexp|include|subinclude):(.*)`: the six
alternatives followed by a colon are mutually exclusive prefixes, so the
anchored match is a prefix dispatch. -/
def re2Match (s : List Char) : Option (List Char × List Char) :=
  if ("glob:".toList).isPrefixOf s then some ("glob".toList, s.drop 5)
  else if ("rootglob:".toList).isPrefixOf s then some ("rootglob".toList, s.drop 9)
  else if ("re:".toList).isPrefixOf s then some ("re".toList, s.drop 3)
  else if ("regexp:".toList).isPrefixOf s then some ("regexp".toList, s.drop 7)
  else if ("include:".toList).isPrefixOf s then some ("include".toList, s.drop 8)
  else if ("subinclude:".toList).isPrefixOf s then some ("subinclude".toList, s.drop 11)
  else none

/-- Two-sided substring test, Python `pat in s`. -/
def containsSub (pat s : List Char) : Bool :=
  s.tails.any (fun t => pat.isPrefixOf t)

/-- `re.search(rb'\x7b|\x7d', glob)`: does the glob contain a curly brace? -/
def containsBrace (s : List Char) : Bool :=
  s.any (fun c => c == chLbr || c == chRbr)

/-- `re.fullmatch(rb'(?!\*\*|/)(?:(?!\*\*)[^/])*/?', glob)` from the `glob`
branch of `hgignore_to_gitignore`: the glob does not start with `/`, contains
no `**` anywhere, and has no `/` other than an optional final one.  When this
holds the glob is a single-component specification and needs no `**/`
prepended. -/
def globNoMassage (g : List Char) : Bool :=
  !(['/'].isPrefixOf g) && !(containsSub ['*', '*'] g) && !(g.dropLast.contains '/')

/-- `re.fullmatch(rb'(?!\*\*|/)(?:[^/])+/?', glob)` from the `rootglob`
branch: non-empty, does not start with `**` or `/`, and no `/` other than an
optional final one (interior `**` is allowed here). -/
def rootglobSingle (g : List Char) : Bool :=
  !(g.isEmpty) && !((['*', '*'] : List Char).isPrefixOf g) &&
    !(['/'].isPrefixOf g) && !(g.dropLast.contains '/')

/-- A token of `tokenize_regexp` (hg_reader.py).  Plain byte strings that the
glob builder concatenates are `txt`; the four sentinel tokens
`TOKEN_QUESTION_MARK`, `TOKEN_PIPE`, `TOKEN_LEFT_PAREN`, `TOKEN_RIGHT_PAREN`
are their own constructors. -/
inductive rtok where
  | txt : List Char → rtok
  | qmark : rtok
  | pipe : rtok
  | lparen : rtok
  | rparen : rtok
  deriving DecidableEq

/-- `tokenize_regexp` (hg_reader.py): scan the regexp with the alternation
`\^|\$|\\.|\\|\.\*|\.|\.\?|\[\^/\]\*|\[|\]|\||\(:|\(|\)|\?|\*|\+|\x7b|\x7d`
(leftmost match, alternatives in order), turning `\.` into `.`, `.*` into
`**`, `.` into `?`, `[^/]*` into `*`, and leaving non-matching text as
literal chunks.  The tokens `\` (lone), `(:`, `*`, `?` after `[`-style,
`+`, braces and brackets cannot be converted and raise `re.error`.  The
Python generator raises lazily; we tokenize eagerly, which only changes
which diagnostic message an ill-formed regexp produces (messages are
abbreviated here: they flow only into comment lines of the output, which no
claim inspects). -/
def tokStep (c : Char) (rest : List Char) : Except (List Char) (rtok × List Char) :=
  if c = '^' ∨ c = '$' then .ok (rtok.txt [c], rest)
  else if c = chBsl then
    match rest with
    | [] => .error ("Unsupported token".toList)
    | d :: rest2 => .ok ((if d = '.' then rtok.txt ['.'] else rtok.txt [c, d]), rest2)
  else if c = '.' then
    match rest with
    | '*' :: rest2 => .ok (rtok.txt ['*', '*'], rest2)
    | _ => .ok (rtok.txt ['?'], rest)
  else if c = '[' then
    match rest with
    | '^' :: '/' :: ']' :: '*' :: rest2 => .ok (rtok.txt ['*'], rest2)
    | _ => .error ("Unsupported token".toList)
  else if c = ']' then .error ("Unsupported token".toList)
  else if c = '|' then .ok (rtok.pipe, rest)
  else if c = '(' then
    match rest with
    | ':' :: _ => .error ("Unsupported token".toList)
    | _ => .ok (rtok.lparen, rest)
  else if c = ')' then .ok (rtok.rparen, rest)
  else if c = '?' then .ok (rtok.qmark, rest)
  else if c = '*' ∨ c = '+' ∨ c = chLbr ∨ c = chRbr then
    .error ("Unsupported token".toList)
  else .ok (rtok.txt [c], rest)

/-- Fueled driver for `tokStep`; every step consumes at least the head
character, so fuel equal to the input length always suffices. -/
def tokenizeGo (fuel : Nat) (s : List Char) : Except (List Char) (List rtok) :=
  match fuel, s with
  | _, [] => .ok []
  | 0, _ => .error ("fuel".toList)
  | fuel + 1, c :: rest =>
    match tokStep c rest with
    | .error e => .error e
    | .ok (t, rem) =>
      match tokenizeGo fuel rem with
      | .ok ts => .ok (t :: ts)
      | .error e => .error e

def tokenize (s : List Char) : Except (List Char) (List rtok) :=
  tokenizeGo s.length s

/-- An element of a glob list under construction in `process_regexp_tokens`:
either a byte string, or the list of alternatives a `?` or a parenthesised
subexpression produced. -/
inductive gitem where
  | txt : List Char → gitem
  | opts : List (List Char) → gitem

/-- Close the current `|`-group: the items seen so far (held reversed) with
the trailing string under construction as the last element. -/
def groupClose (items_rev : List gitem) (cur : List Char) : List gitem :=
  (gitem.txt cur :: items_rev).reverse

/-- The expansion loop at the end of `process_regexp_tokens`: a group is the
product of its items, an `opts` item multiplying the alternatives out. -/
def expandGroup (g : List gitem) : List (List Char) :=
  g.foldl
    (fun acc it =>
      match it with
      | gitem.txt s => acc.map (fun a => a ++ s)
      | gitem.opts gs => catMap (fun a => gs.map (fun b => a ++ b)) acc)
    [[]]

/-- All groups expanded and concatenated (`expanded_glob_list`). -/
def expandAll (groups : List (List gitem)) : List (List Char) :=
  catMap expandGroup groups

/-- `process_regexp_tokens` (hg_reader.py), state-passing: `groups_rev` holds
the finished `|`-groups reversed, `items_rev` the current group's items
reversed, `cur` the trailing byte string under construction
(`glob_list_list[-1][-1]`).  Returns the expanded glob list and the unread
tokens (beginning with the `rparen` the call stopped at, if any).  `fuel`
only forces termination; `tokens+1` is always enough. -/
def processTokens (fuel : Nat) (toks : List rtok) (groups_rev : List (List gitem))
    (items_rev : List gitem) (cur : List Char) :
    Except (List Char) (List (List Char) × List rtok) :=
  match fuel with
  | 0 => .error ("fuel".toList)
  | fuel + 1 =>
    match toks with
    | [] => .ok (expandAll (groupClose items_rev cur :: groups_rev).reverse, [])
    | rtok.rparen :: rest =>
      .ok (expandAll (groupClose items_rev cur :: groups_rev).reverse, rtok.rparen :: rest)
    | rtok.qmark :: rest =>
      if cur ≠ [] then
        processTokens fuel rest groups_rev (gitem.opts [cur, cur.dropLast] :: items_rev) []
      else
        match items_rev with
        | gitem.opts gs :: tl =>
          processTokens fuel rest groups_rev
            (gitem.opts (if [] ∈ gs then gs else gs ++ [[]]) :: tl) []
        | _ => .error ("Unsupported token".toList)
    | rtok.pipe :: rest =>
      processTokens fuel rest (groupClose items_rev cur :: groups_rev) [] []
    | rtok.lparen :: rest =>
      match processTokens fuel rest [] [] [] with
      | .error e => .error e
      | .ok (nested, rem) =>
        match rem with
        | rtok.rparen :: rem2 =>
          processTokens fuel rem2 groups_rev
            (gitem.opts nested :: gitem.txt cur :: items_rev) []
        | _ => .error ("Parenthesis not closed".toList)
    | rtok.txt s :: rest =>
      processTokens fuel rest groups_rev items_rev (cur ++ s)

/-- The per-glob anchor handling of `regexp_to_glob`: a leading `^` becomes
`/` (otherwise `**` is prepended unless already there), a remaining `^` is an
error; a trailing `$` is dropped (otherwise `**` is appended unless already
there), a remaining `$` is an error; an empty glob is dropped (`none`). -/
def anchorGlob (raw : List Char) : Except (List Char) (Option (List Char)) :=
  let g :=
    if (['^'] : List Char).isPrefixOf raw then '/' :: raw.drop 1
    else if (['*', '*'] : List Char).isPrefixOf raw then raw
    else '*' :: '*' :: raw
  if g.contains '^' then .error ("Misplaced start of line anchor".toList)
  else
    let g2 :=
      if (['$'] : List Char).isSuffixOf g then g.dropLast
      else if (['*', '*'] : List Char).isSuffixOf g then g
      else g ++ ['*', '*']
    if g2.contains '$' then .error ("Misplaced end of line anchor".toList)
    else .ok (if g2 = [] then none else some g2)

/-- `regexp_to_glob` (hg_reader.py): tokenize, build the raw glob list, fail
on an unconsumed right parenthesis, then apply the anchor rules to each raw
glob in order, dropping empty results; the first error aborts. -/
def regexp_to_glob (regexp : List Char) : Except (List Char) (List (List Char)) :=
  match tokenize regexp with
  | .error e => .error e
  | .ok toks =>
    match processTokens (toks.length + 1) toks [] [] [] with
    | .error e => .error e
    | .ok (raws, rem) =>
      if rem ≠ [] then .error ("Unmatched right parenthesis".toList)
      else
        raws.foldlM
          (fun acc raw =>
            match anchorGlob raw with
            | .error e => .error e
            | .ok none => .ok acc
            | .ok (some g) => .ok (acc ++ [g]))
          []

/-- `re.fullmatch(rb'(.*?/)((?:[^/*]|(?<!\*)\*)+)/\*+', glob)` from
`simplify_gitignore_glob`.  The fullmatch succeeds exactly when the glob ends
with `/` followed by one or more `*` (so the last `/` of the glob is that
one), the part before it contains a `/`, and the component between the last
two slashes is non-empty and free of `**` (the lookbehind bans a `*` right
after another `*`; the `*` after the group's leading `/` is allowed).
Returns the two groups `(A, B)` with `A` ending in `/`. -/
def simplifyMatchB (glob : List Char) : Option (List Char × List Char) :=
  let r := glob.reverse
  let stars := r.takeWhile (fun c => c == '*')
  match stars, r.drop stars.length with
  | [], _ => none
  | _ :: _, [] => none
  | _ :: _, c :: r3 =>
    if c ≠ '/' then none
    else
      let bRev := r3.takeWhile (fun c2 => c2 ≠ '/')
      match r3.drop bRev.length with
      | [] => none
      | aRev =>
        if bRev = [] then none
        else if containsSub ['*', '*'] bRev.reverse then none
        else some (aRev.reverse, bRev.reverse)

/-- `re.fullmatch(rb'\*\*([^/*][^/]*/?)', glob)` from
`simplify_gitignore_glob`: the glob is `**`, a character that is neither `/`
nor `*`, then characters with no `/` except an optional final one; the
rewrite `*\1` drops one leading asterisk. -/
def simplifyMatchC (glob : List Char) : Option (List Char) :=
  match glob with
  | c1 :: c2 :: c3 :: rest =>
    if c1 = '*' ∧ c2 = '*' ∧ c3 ≠ '/' ∧ c3 ≠ '*' ∧ ¬(rest.dropLast.contains '/' = true) then
      some ('*' :: c3 :: rest)
    else none
  | _ => none

/-- `simplify_gitignore_glob` (hg_reader.py): drop a redundant `**/` before
`**`, replace a trailing `/**`-style suffix with a single slash (dropping a
leading `**/` entirely when it is the whole prefix), and reduce a leading
`**` on a single-component glob to one asterisk. -/
def simplify_gitignore_glob (glob : List Char) : List Char :=
  let glob1 :=
    if ("**/**".toList).isPrefixOf glob then glob.drop 3 else glob
  let glob2 :=
    match simplifyMatchB glob1 with
    | some (a, b) => if a = "**/".toList then b ++ ['/'] else a ++ b ++ ['/']
    | none => glob1
  match simplifyMatchC glob2 with
  | some res => res
  | none => glob2

/-- The lines `hgignore_to_gitignore` emits for one input line that reached
the syntax dispatch (`line_syn` is the per-line syntax, `glob` the pattern
part, `tail` the trailing comment, `line` the whole input line). -/
def hgignoreGlobLine (line_syn glob tail line : List Char) : List (List Char) :=
  if line_syn = "glob".toList then
    if containsBrace glob then
      [("# Unsupported glob specification:".toList ++ [nl] ++ "# ".toList ++ line)]
    else
      let glob2 := if globNoMassage glob then glob else "**/".toList ++ glob
      let glob3 := simplify_gitignore_glob glob2
      if glob3 = ".git/".toList then [] else [glob3 ++ tail]
  else if line_syn = "rootglob".toList then
    let glob2 := if rootglobSingle glob then '/' :: glob else glob
    let glob3 := simplify_gitignore_glob glob2
    if glob3 = ".git/".toList then [] else [glob3 ++ tail]
  else if line_syn = "re".toList ∨ line_syn = "regexp".toList then
    match regexp_to_glob glob with
    | .ok glob_list =>
      ("# regexp:".toList ++ glob ++ tail) :: glob_list.map simplify_gitignore_glob
    | .error e =>
      [("# Unsupported regular expression:".toList ++ [nl] ++ "# ".toList ++ e
          ++ [nl] ++ "# ".toList ++ line)]
  else
    [("# Unrecognized ignore specification:".toList ++ [nl] ++ "# ".toList ++ line)]

/-- One line of the main loop of `hgignore_to_gitignore`: given the current
`syntax:` state and the line, the new state and the output lines. -/
def hgignoreLine (syn line : List Char) : List Char × List (List Char) :=
  match re1Fullmatch line with
  | none => (syn, [line])
  | some (body, tail) =>
    if body = [] then (syn, [line])
    else if ("syntax:".toList).isPrefixOf body then (pyStrip (body.drop 7), [])
    else
      match re2Match body with
      | some (ls, g) =>
        if ls = "include".toList ∨ ls = "subinclude".toList then
          (syn, [("# ".toList ++ line)])
        else (syn, hgignoreGlobLine ls g tail line)
      | none => (syn, hgignoreGlobLine syn body tail line)

/-- The `lines` list `hgignore_to_gitignore` collects: the main loop over
the input lines, with the `syntax:` state starting at `regexp`. -/
def hgignoreLines (data : List Char) : List (List Char) :=
  ((splitlines data).foldl
      (fun st line =>
        match hgignoreLine st.1 line with
        | (syn2, ls) => (syn2, st.2 ++ ls))
      ("regexp".toList, ([] : List (List Char)))).2

/-- `hgignore_to_gitignore` (hg_reader.py): process the lines, then
`b'\n'.join(lines + [b''])` — the appended empty entry makes a non-empty
output end with a newline (and leaves an empty `lines` list producing the
empty string). -/
def hgignore_to_gitignore (data : List Char) : List Char :=
  joinl [nl] (hgignoreLines data ++ [[]])

/-! ### File nodes of the revision projector (hg_reader.py) -/

/-- The file context as `change_file`/`delete_file` read it: data plus the
symlink/executable flags. -/
structure fctx where
  data : List Char
  islink : Bool
  isexec : Bool
  deriving DecidableEq

/-- Action of a revision node. -/
inductive nodeAction where
  | add
  | change
  | delete
  deriving DecidableEq

/-- File property set a file node carries (the `props` dict holds at most one
key, the `elif` chain making symlink win over executable; `none` models the
Python default `props=None` of nodes created without a dict). -/
inductive fprops where
  | noDict
  | emptyDict
  | symlink
  | executable
  deriving DecidableEq

/-- A revision node as `add_revision_node` records it (the fields the file
nodes use). -/
structure rnode where
  action : nodeAction
  kind : Option (List Char)
  path : List Char
  data : Option (List Char)
  props : fprops
  deriving DecidableEq

/-- `add_revision_node(b'delete', None, path)`. -/
def deleteNode (path : List Char) : rnode :=
  ⟨nodeAction.delete, none, path, none, fprops.noDict⟩

/-- Python `path == b'.hgignore' or path.endswith(b'/.hgignore')`. -/
def isHgignorePath (path : List Char) : Bool :=
  path == ".hgignore".toList || ("/.hgignore".toList).isSuffixOf path

/-- Python `path == b'.gitignore' or path.endswith(b'/.gitignore')`. -/
def isGitignorePath (path : List Char) : Bool :=
  path == ".gitignore".toList || ("/.gitignore".toList).isSuffixOf path

/-- `path.removesuffix(b'.hgignore') + b'.gitignore'`. -/
def toGitignorePath (path : List Char) : List Char :=
  removeSuf (".hgignore".toList) path ++ ".gitignore".toList

/-- `path.removesuffix(b'.gitignore') + b'.hgignore'`. -/
def toHgignorePath (path : List Char) : List Char :=
  removeSuf (".gitignore".toList) path ++ ".hgignore".toList

/-- `hg_changectx_revision.change_file`: symlinks keep their data with the
symlink property; otherwise, with `--convert-hgignore`, an `.hgignore` path
is renamed to the sibling `.gitignore` and its data routed through
`hgignore_to_gitignore` with action forced to `change`; otherwise executable
files get the executable property. -/
def change_file (convert_hgignore : Bool) (path : List Char) (f : fctx)
    (action : nodeAction) : rnode :=
  if f.islink then
    ⟨action, some ("file".toList), path, some f.data, fprops.symlink⟩
  else if convert_hgignore && isHgignorePath path then
    ⟨nodeAction.change, some ("file".toList), toGitignorePath path,
      some (hgignore_to_gitignore f.data), fprops.emptyDict⟩
  else if f.isexec then
    ⟨action, some ("file".toList), path, some f.data, fprops.executable⟩
  else
    ⟨action, some ("file".toList), path, some f.data, fprops.emptyDict⟩

/-- A changectx restricted to what `delete_file` consults: the mapping from
paths to file contexts (`path in ctx`, `ctx[path]`). -/
def ctxLookup (t : List (List Char × fctx)) (p : List Char) : Option fctx :=
  (t.find? (fun e => e.1 == p)).map (fun e => e.2)

/-- `hg_changectx_revision.delete_file`: at most one node is appended.  With
conversion on and an `.hgignore` path, the local variable `path` is rebound
to the sibling `.gitignore`; if that sibling is in the current tree it is
restored from the current tree (a change node), else if it was in the parent
tree the deletion is skipped, else the fall-through emits a delete node for
the rebound `.gitignore` path.  A `.gitignore` deletion regenerates it from
a sibling `.hgignore` of the current tree when one exists (with `props=None`,
matching `add_revision_node(b'change', b'file', path, data=data)`). -/
def delete_file (convert_hgignore : Bool) (path : List Char)
    (changectx parent_changectx : List (List Char × fctx)) : Option rnode :=
  if !convert_hgignore then some (deleteNode path)
  else if isHgignorePath path then
    let gpath := toGitignorePath path
    match ctxLookup changectx gpath with
    | some f => some (change_file convert_hgignore gpath f nodeAction.change)
    | none =>
      match ctxLookup parent_changectx gpath with
      | some _ => none
      | none => some (deleteNode gpath)
  else if isGitignorePath path then
    let hgpath := toHgignorePath path
    match ctxLookup changectx hgpath with
    | some f =>
      some ⟨nodeAction.change, some ("file".toList), path,
        some (hgignore_to_gitignore f.data), fprops.noDict⟩
    | none => some (deleteNode path)
  else some (deleteNode path)

/-! ### First-parent wrapping of `hg_changectx_revision.__init__` -/

/-- The fields of an already-emitted parent revision that the first-parent
handling of `hg_changectx_revision.__init__` reads and writes. -/
structure hgParentRev where
  branch : List Char
  child_revision : Option (List Char)
  children : List (List Char)
  tree : Option Nat
  deriving DecidableEq

/-- The first-parent branch of `hg_changectx_revision.__init__` (the
`if parents:` block): when the parent is on another branch, or already has a
continuation child, an `add branch` node is emitted and the new child is
removed from the parent's child list (`True` in the result); only when the
child continues the parent's branch (same branch name and no continuation
yet) is the parent's cached tree dropped, and only if the parent's child
list has exactly one entry. -/
def wrap_first_parent (self_branch rev_hex : List Char) (p : hgParentRev) :
    hgParentRev × Bool :=
  if p.branch ≠ self_branch then
    ({ p with children := p.children.erase rev_hex }, true)
  else
    match p.child_revision with
    | none =>
      ({ { p with child_revision := some rev_hex } with
          tree := if p.children.length = 1 then none else p.tree }, false)
    | some _ => ({ p with children := p.children.erase rev_hex }, true)

/-! ### Commit builder core of `project_branch.make_commit` (project_tree.py) -/

/-- The fields of a parent `project_branch_rev` that the parent scan of
`make_commit` reads. -/
structure prev_info where
  commit : Option (List Char)
  committed_git_tree : List Char
  committed_tree : Option Nat
  deriving DecidableEq

/-- `project_branch.initial_git_tree`, the SHA-1 of the empty git tree. -/
def initial_git_tree : List Char :=
  "4b825dc642cb6eb9a060e54bf8d69288fbee4904".toList

/-- One step of the parent scan of `make_commit`: parents without a commit
are skipped; a commit already collected is skipped; otherwise the commit is
appended and the base revision is replaced whenever it is still unset or its
committed git tree is the empty tree. -/
def collectStep (st : List (List Char) × Option prev_info) (p : prev_info) :
    List (List Char) × Option prev_info :=
  match p.commit with
  | none => st
  | some c =>
    if c ∈ st.1 then st
    else
      (st.1 ++ [c],
        match st.2 with
        | none => some p
        | some b => if b.committed_git_tree = initial_git_tree then some p else st.2)

/-- The parent scan of `make_commit` over `rev_info.parents`: the list of
distinct parent commits in discovery order, and the base revision. -/
def collect_parents (parents : List prev_info) : List (List Char) × Option prev_info :=
  parents.foldl collectStep ([], none)

/-- `base_rev` as `make_commit` leaves it after the parent scan. -/
def base_rev (parents : List prev_info) : Option prev_info :=
  (collect_parents parents).2

/-- `parent_commits` as `make_commit` leaves it after the parent scan. -/
def parent_commits (parents : List prev_info) : List (List Char) :=
  (collect_parents parents).1

/-- `parent_git_tree` of `make_commit`: the base revision's committed git
tree, or the empty git tree when no parent has a commit. -/
def base_git_tree (parents : List prev_info) : List Char :=
  match base_rev parents with
  | none => initial_git_tree
  | some b => b.committed_git_tree

/-- The `commit` local of `make_commit` before the `need_commit` decision:
the base revision's commit, if any. -/
def base_commit (parents : List prev_info) : Option (List Char) :=
  (base_rev parents).bind prev_info.commit

/-- The `parent_tree` local of `make_commit`: the base revision's committed
(path) tree, if any. -/
def base_committed_tree (parents : List prev_info) : Option Nat :=
  (base_rev parents).bind prev_info.committed_tree

/-- What `make_commit` records on the revision after deciding `need_commit`. -/
structure commitResult where
  emitted : Bool
  commit : Option (List Char)
  rev_commit : Option (List Char)
  committed_git_tree : List Char
  committed_tree : Option Nat
  deriving DecidableEq

/-- The commit decision of `project_branch.make_commit` after the stage list
was applied: `need_commit` is `staged_git_tree != parent_git_tree`, forced
to true when more than one distinct parent commit was collected.  When a
commit is made (`new_sha` stands for the SHA-1 `git commit-tree` returns)
the revision records it together with the staged trees; otherwise it
inherits the base parent's commit and committed trees and `rev_commit`
stays `None`. -/
def make_commit_core (staged_git_tree : List Char) (tree : Option Nat)
    (parents : List prev_info) (new_sha : List Char) : commitResult :=
  if staged_git_tree ≠ base_git_tree parents ∨ 1 < (parent_commits parents).length then
    ⟨true, some new_sha, some new_sha, staged_git_tree, tree⟩
  else
    ⟨false, base_commit parents, none, base_git_tree parents, base_committed_tree parents⟩

/-- The spec's reading of the base parent ("the first of `stage.parents`
whose `committed_git_tree` is non-empty", parents without a commit skipped):
a parent qualifies when it has a commit and a non-empty committed git tree. -/
def qualifies (p : prev_info) : Bool :=
  p.commit.isSome && !(p.committed_git_tree == initial_git_tree)

/-- Consistency of two parent entries: if the first has a commit and both
have the same commit, their committed git trees agree.  This is an invariant
of the program (a revision's committed git tree is determined by its commit:
a made commit records its own tree's SHA-1 and an inherited commit copies
its base's committed tree). -/
def commit_consistent (p q : prev_info) : Prop :=
  p.commit.isSome = true → p.commit = q.commit →
    p.committed_git_tree = q.committed_git_tree

/-! ### Merged-revisions bookkeeping of `project_branch_rev` (project_tree.py) -/

/-- Lookup in an association list keyed by branch identity (Python dicts
keyed by branch objects are modelled with `Nat` branch ids). -/
def alookup : List (Nat × Nat) → Nat → Option Nat
  | [], _ => none
  | e :: tl, b => if e.1 = b then some e.2 else alookup tl b

/-- Python dict update: replace in place when the key exists (insertion
order kept), append otherwise. -/
def aset (m : List (Nat × Nat)) (b r : Nat) : List (Nat × Nat) :=
  match m with
  | [] => [(b, r)]
  | e :: tl => if e.1 = b then (b, r) :: tl else e :: aset tl b r

/-- The state of a `project_branch_rev` that the merge bookkeeping reads and
writes: its branch, its `merged_revisions` map (branch ↦ merged revision
number; entries stand for the stored `project_branch_rev` objects, of which
these functions read only `.branch` and `.rev`) and its `revisions_to_merge`
map.  The copy-on-write sharing with `prev_rev.merged_revisions` is
semantically the identity and is elided. -/
structure mrevState where
  branch : Nat
  merged_revisions : List (Nat × Nat)
  revisions_to_merge : Option (List (Nat × Nat))
  deriving DecidableEq

/-- `project_branch_rev.is_merged_from` (with the default
`skip_empty_revs=False`): revisions of the own branch count as merged;
otherwise the recorded merged revision of the argument's branch must be at
least the argument's revision. -/
def is_merged_from (s : mrevState) (b r : Nat) : Bool :=
  if b = s.branch then true
  else
    match alookup s.merged_revisions b with
    | none => false
    | some m => r ≤ m

/-- `project_branch_rev.set_merged_revision` (the lazy copy from
`prev_rev.merged_revisions` is the identity on the map's contents). -/
def set_merged_revision (s : mrevState) (b r : Nat) : mrevState :=
  { s with merged_revisions := aset s.merged_revisions b r }

/-- The loop shared by `add_parent_revision` and
`process_parent_revisions`: fold the given (branch, rev) entries, skipping
those already merged, recording the rest. -/
def merge_in_revisions (s : mrevState) (mrevs : List (Nat × Nat)) : mrevState :=
  mrevs.foldl
    (fun st e => if is_merged_from st e.1 e.2 then st else set_merged_revision st e.1 e.2)
    s

/-- The fields of `add_rev` that `add_parent_revision` reads. -/
structure addRevInfo where
  has_tree : Bool
  branch : Nat
  rev : Nat
  merged_revisions : List (Nat × Nat)
  deriving DecidableEq

/-- `project_branch_rev.add_parent_revision`: a parent without a tree or
already merged is ignored; a parent whose branch already has a pending
revision of at least its number returns early; otherwise the pending map is
updated and the parent's own merged revisions are folded in (each only when
not already merged). -/
def add_parent_revision (s : mrevState) (a : addRevInfo) : mrevState :=
  if !a.has_tree then s
  else if is_merged_from s a.branch a.rev then s
  else
    match s.revisions_to_merge with
    | none =>
      merge_in_revisions { s with revisions_to_merge := some [(a.branch, a.rev)] }
        a.merged_revisions
    | some rtm =>
      match alookup rtm a.branch with
      | some m =>
        if a.rev ≤ m then s
        else
          merge_in_revisions { s with revisions_to_merge := some (aset rtm a.branch a.rev) }
            a.merged_revisions
      | none =>
        merge_in_revisions { s with revisions_to_merge := some (aset rtm a.branch a.rev) }
          a.merged_revisions

/-- The merged-revisions effect of `project_branch_rev.process_parent_revisions`:
each pending revision not already merged is recorded, then the pending map
is cleared (the parents list it also builds is not part of this state). -/
def process_parent_revisions (s : mrevState) : mrevState :=
  match s.revisions_to_merge with
  | none => s
  | some rtm => { merge_in_revisions s rtm with revisions_to_merge := none }

/-! ### Cherry-pick footer of `project_branch_rev.get_cherrypick_str` -/

/-- The fields of a cherry-pick source revision that `get_cherrypick_str`
reads.  `change_id` is an *attribute slot*: `project_branch_rev.__init__`
never assigns `change_id`, so in every state the program reaches the slot is
unset (`none`) and reading it raises `AttributeError`. -/
structure cpRev where
  rev : Nat
  rev_commit : Option (List Char)
  commit : List Char
  change_id : Option (List Char)
  merged : Bool
  branch_refname : List Char
  branch_name : List Char
  deriving DecidableEq

/-- Stable insertion into a list sorted by ascending `rev`
(`self.cherry_pick_revs.sort(key=lambda rev_info: rev_info.rev)`). -/
def insertByRev (x : cpRev) : List cpRev → List cpRev
  | [] => [x]
  | y :: tl => if y.rev ≤ x.rev then y :: insertByRev x tl else x :: y :: tl

/-- Stable sort by ascending `rev`. -/
def sortByRev (l : List cpRev) : List cpRev :=
  l.foldl (fun acc x => insertByRev x acc) []

/-- The AttributeError message raised on reading an unset `change_id`. -/
def attrErr : List Char := "AttributeError: change_id".toList

/-- The filter loop of `get_cherrypick_str`: skip sources without
`rev_commit` and sources already merged; for the rest, read `change_id`
(raising `AttributeError` when the slot is unset) and collect the first
source per distinct commit, remembering the last `change_id` read. -/
def cherrypickLoop : List cpRev → List (List Char × cpRev) → Option (List Char) →
    Except (List Char) (List (List Char × cpRev) × Option (List Char))
  | [], commits, cid => .ok (commits, cid)
  | r :: tl, commits, cid =>
    match r.rev_commit with
    | none => cherrypickLoop tl commits cid
    | some _ =>
      if r.merged then cherrypickLoop tl commits cid
      else
        match r.change_id with
        | none => .error attrErr
        | some c =>
          cherrypickLoop tl
            (if commits.any (fun e => e.1 == r.commit) then commits
             else commits ++ [(r.commit, r)])
            (some c)

/-- `re.sub('(?:^refs/(?:heads/)?)(.*)?', r'\1', refname)`: strip a leading
`refs/heads/` or `refs/`. -/
def shortRefname (refname : List Char) : List Char :=
  if ("refs/heads/".toList).isPrefixOf refname then refname.drop 11
  else if ("refs/".toList).isPrefixOf refname then refname.drop 5
  else refname

/-- The message loop of `get_cherrypick_str`: one `Cherry-picked-from:` line
per collected commit; reading `rev_info.change_id` or `self.change_id`
raises `AttributeError` when the slot is unset (as it always is in the
program as written). -/
def cherrypickMsg : List (List Char × cpRev) → Option (List Char) →
    Except (List Char) (List (List Char))
  | [], _ => .ok []
  | (cmt, r) :: tl, scid =>
    match r.change_id, scid with
    | none, _ => .error attrErr
    | some _, none => .error attrErr
    | some rc, some sc =>
      let refname :=
        if shortRefname r.branch_refname = [] then r.branch_name
        else shortRefname r.branch_refname
      let line :=
        "Cherry-picked-from: ".toList ++ cmt ++ [' '] ++ refname ++ [';']
          ++ Nat.toDigits 10 r.rev
      let line2 := if rc ≠ sc then line ++ " Change-Id: ".toList ++ rc else line
      match cherrypickMsg tl (some sc) with
      | .ok ls => .ok (line2 :: ls)
      | .error e => .error e

/-- `project_branch_rev.get_cherrypick_str`: sort the sources, run the
filter loop, let the new commit inherit `change_id` when exactly one
distinct commit remains, then build the footer lines.  Returns the footer
and the resulting `self.change_id` slot, or the `AttributeError` the
program raises. -/
def get_cherrypick_str (self_change_id : Option (List Char)) (revs : List cpRev) :
    Except (List Char) (List Char × Option (List Char)) :=
  match cherrypickLoop (sortByRev revs) [] none with
  | .error e => .error e
  | .ok (commits, cid) =>
    let scid := if commits.length = 1 then cid else self_change_id
    match cherrypickMsg commits scid with
    | .error e => .error e
    | .ok lines => .ok (joinl [nl] lines, scid)

/-! ### Ref-collision resolution of `project_history_tree.make_unique_refname` -/

/-- Modelled from the spec: the all-refs collision tree (`path_tree` comes
from the module `lookup_tree`, which is not among the source files).  Per
§4.A/§4.G and the glossary it is a registry of produced refnames keyed by
slash-separated path components; we model it as the list of registered
component paths.  `get_node(ref, match_full_path=True)` is exact
membership. -/
def get_node_full (tree : List (List (List Char))) (p : List Char) : Bool :=
  tree.contains (splitSep '/' p)

/-- Modelled from the spec: the partial-path conflict of §4.G ("partial-path
match with the interior already claimed by a non-directory =>
unresolvable"): some registered path is a proper prefix of the probed path's
components. -/
def interior_conflict (tree : List (List (List Char))) (p : List Char) : Bool :=
  tree.any (fun q =>
    q.isPrefixOf (splitSep '/' p) && decide (q.length < (splitSep '/' p).length))

/-- The candidate name `refname + '___%d' % i`. -/
def candName (refname : List Char) (i : Nat) : List Char :=
  refname ++ "___".toList ++ Nat.toDigits 10 i

/-- The probe loop `for i in range(1, 100)` of `make_unique_refname`: probe
the current candidate; on a full-path conflict move to `refname___i`.  The
loop body runs for i = 1..99, so it probes the base name and the first 98
suffixed candidates; `fuel` counts the remaining iterations and exhaustion
is the loop's `else:` branch returning `None`. -/
def unique_loop (tree : List (List (List Char))) (refname new_ref : List Char)
    (i fuel : Nat) : Option (List Char) :=
  match fuel with
  | 0 => none
  | fuel + 1 =>
    if get_node_full tree new_ref then
      unique_loop tree refname (candName refname i) (i + 1) fuel
    else some new_ref

/-- `project_history_tree.make_unique_refname` (its collision tree modelled
from the spec as above): an empty refname is returned as is; the probe loop
runs with 99 iterations; a surviving candidate is dropped (`None`, with a
warning) when a registered path claims a proper prefix of it; otherwise the
candidate is registered and returned (registration mutates the tree and is
not part of the returned value). -/
def make_unique_refname (tree : List (List (List Char))) (refname : List Char) :
    Option (List Char) :=
  if refname = [] then some refname
  else
    match unique_loop tree refname refname 1 99 with
    | none => none
    | some new_ref =>
      if interior_conflict tree new_ref then none else some new_ref

/-- The candidates the loop actually probes, in order: the base name and
`___1` … `___98`. -/
def probe_list (refname : List Char) : List (List Char) :=
  refname :: (List.range' 1 98).map (candName refname)

/-! ### Top-level exit codes (hg-to-git.py) -/

/-- The exceptions the `__main__` dispatch of hg-to-git.py catches. -/
inductive pyExc where
  | RepoError
  | FileNotFoundError
  | Exception_history_parse
  | Exception_cfg_parse
  | KeyboardInterrupt
  deriving DecidableEq

/-- How a run of `main()` ends: normally (returning 0) or with one of the
dispatched exceptions. -/
inductive mainResult where
  | ok
  | raised : pyExc → mainResult
  deriving DecidableEq

/-- The `__main__` block of hg-to-git.py: `sys.exit(main())` with `main`
returning 0, and the `except` chain mapping each exception to its exit
code. -/
def toplevel_exit : mainResult → Nat
  | mainResult.ok => 0
  | mainResult.raised e =>
    match e with
    | pyExc.RepoError => 2
    | pyExc.FileNotFoundError => 1
    | pyExc.Exception_history_parse => 128
    | pyExc.Exception_cfg_parse => 128
    | pyExc.KeyboardInterrupt => 130

/-! ### Concrete inputs used by the theorems -/

/-- The `.hgignore` content of scenario S6 of the spec. -/
def s6_input : List Char :=
  "syntax: glob\n*.log\nsyntax: regexp\n^build/.*$".toList

/-- A collision tree in which the base refname `a` and the 98 candidates
`a___1` … `a___98` are all registered (as single-component paths), while
`a___99` is free. -/
def cex_tree : List (List (List Char)) :=
  (probe_list ("a".toList)).map (fun p => [p])

/-- Entry-wise monotonicity between two merged-revisions maps: every entry
of the first is present in the second with an equal or higher revision
number. -/
def entries_nondecreasing (m m2 : List (Nat × Nat)) : Prop :=
  ∀ b r, alookup m b = some r → ∃ r2, alookup m2 b = some r2 ∧ r ≤ r2

/-!
## Theorems

Helper lemmas come first; one theorem (plus witness or counterexample where
required) settles each claim.
-/

/-- `b'\n'.join(lines + [b''])` is empty or ends with a newline. -/
theorem joinl_append_last (ls : List (List Char)) :
    joinl [nl] (ls ++ [[]]) = [] ∨ (joinl [nl] (ls ++ [[]])).getLast? = some nl := by
  induction ls with
  | nil => exact Or.inl rfl
  | cons l tl ih =>
    right
    cases tl with
    | nil =>
      show (l ++ [nl] ++ joinl [nl] [[]]).getLast? = some nl
      show (l ++ [nl] ++ []).getLast? = some nl
      rw [List.append_nil, List.getLast?_concat]
    | cons a tl2 =>
      have hstep : joinl [nl] ((l :: a :: tl2) ++ [[]])
          = l ++ [nl] ++ joinl [nl] ((a :: tl2) ++ [[]]) := rfl
      rw [hstep]
      rcases ih with h | h
      · rw [h, List.append_nil, List.getLast?_concat]
      · rw [List.getLast?_append, h]
        rfl

/-- C10: the claim says the output of `hgignore_to_gitignore` is non-empty
and ends with a newline for every input; the empty input refutes the
non-emptiness (see the counterexample).  Amended: for every input the output
is either empty (exactly when the loop collected no output lines, as for
the empty input or a `syntax:`-only input) or ends with a newline. -/
theorem hgignore_output_empty_or_newline (data : List Char) :
    hgignore_to_gitignore data = []
    ∨ (hgignore_to_gitignore data).getLast? = some nl :=
  joinl_append_last (hgignoreLines data)

/-- C10 counterexample: on the empty input the output is the empty byte
string — not non-empty, and not ending with a newline byte. -/
theorem hgignore_empty_input_empty_output : hgignore_to_gitignore [] = [] := by
  decide

/-- C3 counterexample: on the S6 `.hgignore` the translator's output
contains neither a `**/*.log` line nor a `/build/**` line: the single-glob
fast path keeps `*.log` as is, and `simplify_gitignore_glob` rewrites
`/build/**` to `/build/`. -/
theorem hgignore_s6_not_as_claimed :
    ("**/*.log".toList ∉ splitlines (hgignore_to_gitignore s6_input))
    ∧ ("/build/**".toList ∉ splitlines (hgignore_to_gitignore s6_input)) := by
  decide

/-- C3 (amended): on the S6 `.hgignore` (`syntax: glob`, `*.log`,
`syntax: regexp`, `^build/.*$`) the translator produces exactly the lines
`*.log`, the preserved comment `# regexp:^build/.*$`, and `/build/`, the
whole output ending with a newline. -/
theorem hgignore_s6_output :
    hgignore_to_gitignore s6_input
      = ("*.log\n# regexp:^build/.*$\n/build/\n".toList)
    ∧ splitlines (hgignore_to_gitignore s6_input)
      = ["*.log".toList, "# regexp:^build/.*$".toList, "/build/".toList] := by
  decide

/-- C9: the top-level dispatch of hg-to-git.py exits with 0 on success, 2 on
`RepoError`, 1 on `FileNotFoundError`, 128 on a history or config parse
error, and 130 on `KeyboardInterrupt`. -/
theorem toplevel_exit_codes :
    toplevel_exit mainResult.ok = 0
    ∧ toplevel_exit (mainResult.raised pyExc.RepoError) = 2
    ∧ toplevel_exit (mainResult.raised pyExc.FileNotFoundError) = 1
    ∧ toplevel_exit (mainResult.raised pyExc.Exception_history_parse) = 128
    ∧ toplevel_exit (mainResult.raised pyExc.Exception_cfg_parse) = 128
    ∧ toplevel_exit (mainResult.raised pyExc.KeyboardInterrupt) = 130 :=
  ⟨rfl, rfl, rfl, rfl, rfl, rfl⟩

/-- C5 (amended): deleting an `.hgignore` with conversion enabled acts on
the sibling `.gitignore` path: when the *current* tree has that `.gitignore`
it is restored *from the current tree* (a change node); otherwise, when the
parent tree had it, the deletion is skipped (no node); otherwise a delete
node for the generated `.gitignore` path *is* emitted. -/
theorem delete_hgignore_cases (path : List Char)
    (cur par : List (List Char × fctx)) (h : isHgignorePath path = true) :
    (∀ f, ctxLookup cur (toGitignorePath path) = some f →
      delete_file true path cur par
        = some (change_file true (toGitignorePath path) f nodeAction.change))
    ∧ (ctxLookup cur (toGitignorePath path) = none →
        ∀ f, ctxLookup par (toGitignorePath path) = some f →
          delete_file true path cur par = none)
    ∧ (ctxLookup cur (toGitignorePath path) = none →
        ctxLookup par (toGitignorePath path) = none →
          delete_file true path cur par = some (deleteNode (toGitignorePath path))) := by
  refine ⟨?_, ?_, ?_⟩
  · intro f hf
    simp [delete_file, h, hf]
  · intro hc f hf
    simp [delete_file, h, hc, hf]
  · intro hc hp
    simp [delete_file, h, hc, hp]

/-- C5 witness: a concrete `.hgignore` deletion with the sibling
`.gitignore` in the current tree restores it from the current tree. -/
theorem delete_hgignore_cases_witness :
    delete_file true (".hgignore".toList)
        [((".gitignore".toList), ⟨"D".toList, false, false⟩)] []
      = some (change_file true (".gitignore".toList)
          ⟨"D".toList, false, false⟩ nodeAction.change) :=
  (delete_hgignore_cases (".hgignore".toList)
      [((".gitignore".toList), ⟨"D".toList, false, false⟩)] [] (by decide)).1
    ⟨"D".toList, false, false⟩ (by decide)

/-- C5 counterexample: when the sibling `.gitignore` is in neither the
current nor the parent tree, the deletion is *not* skipped — a delete node
for the generated `.gitignore` is emitted, refuting "no delete node for the
generated `.gitignore` is ever emitted". -/
theorem delete_hgignore_cex :
    delete_file true (".hgignore".toList) [] []
      = some (deleteNode (".gitignore".toList)) := by
  decide

/-- C8 (amended): the parent's cached tree is dropped exactly when the new
child continues the parent's branch (same branch name and no continuation
child yet) and the parent's recorded child list has exactly one entry; when
the child starts a new branch (or a sub-branch split), the tree is kept
even if exactly one child survives. -/
theorem parent_tree_dropped_iff (self_branch rev_hex : List Char)
    (p : hgParentRev) (h : p.tree ≠ none) :
    (wrap_first_parent self_branch rev_hex p).1.tree = none
      ↔ (p.branch = self_branch ∧ p.child_revision = none
          ∧ p.children.length = 1) := by
  unfold wrap_first_parent
  by_cases hb : p.branch = self_branch
  · simp only [hb, ne_eq, not_true_eq_false, if_neg, ite_false]
    cases hcr : p.child_revision with
    | none =>
      simp only []
      by_cases hn : p.children.length = 1
      · simp [hn, hb]
      · simp [hn, hb, h]
    | some c => simp [h, hcr]
  · simp [hb, h]

/-- C8 witness: a same-branch continuation whose parent has exactly one
recorded child drops the tree. -/
theorem parent_tree_dropped_iff_witness :
    (wrap_first_parent ("default".toList) ("c1".toList)
        ⟨"default".toList, none, [("c1".toList)], some 7⟩).1.tree = none :=
  (parent_tree_dropped_iff ("default".toList) ("c1".toList)
      ⟨"default".toList, none, [("c1".toList)], some 7⟩ (by decide)).mpr
    (by refine ⟨rfl, rfl, rfl⟩)

/-- C8 counterexample: a parent with two children whose wrapped child starts
a new branch ends up with exactly one surviving child, yet its cached tree
is kept — refuting "regardless of whether that child continues the parent's
branch or starts a new branch". -/
theorem parent_tree_kept_on_new_branch :
    ((wrap_first_parent ("feature".toList) ("c1".toList)
        ⟨"default".toList, none, ["c1".toList, "c2".toList], some 7⟩).1.children.length
      = 1)
    ∧ ((wrap_first_parent ("feature".toList) ("c1".toList)
        ⟨"default".toList, none, ["c1".toList, "c2".toList], some 7⟩).1.tree
      = some 7) := by
  decide

/-- Lookup after a dict update, same key. -/
theorem alookup_aset_self (m : List (Nat × Nat)) (b r : Nat) :
    alookup (aset m b r) b = some r := by
  induction m with
  | nil => simp [aset, alookup]
  | cons e tl ih =>
    by_cases hb : e.1 = b
    · simp [aset, hb, alookup]
    · simpa [aset, hb, alookup] using ih

/-- Lookup after a dict update, other key. -/
theorem alookup_aset_ne (m : List (Nat × Nat)) (b r b2 : Nat) (hne : b2 ≠ b) :
    alookup (aset m b r) b2 = alookup m b2 := by
  have h1 : ¬(b = b2) := fun h => hne h.symm
  induction m with
  | nil => simp [aset, alookup, h1]
  | cons e tl ih =>
    by_cases hb : e.1 = b
    · have h2 : ¬(e.1 = b2) := fun h => h1 (hb ▸ h)
      simp [aset, hb, alookup, h1, h2]
    · by_cases hb2 : e.1 = b2
      · simp [aset, hb, alookup, hb2, hne]
      · simpa [aset, hb, alookup, hb2] using ih

/-- `entries_nondecreasing` is reflexive. -/
theorem nd_refl (m : List (Nat × Nat)) : entries_nondecreasing m m :=
  fun _ r h => ⟨r, h, Nat.le_refl r⟩

/-- `entries_nondecreasing` is transitive. -/
theorem nd_trans {m1 m2 m3 : List (Nat × Nat)}
    (h12 : entries_nondecreasing m1 m2) (h23 : entries_nondecreasing m2 m3) :
    entries_nondecreasing m1 m3 := by
  intro b r h
  obtain ⟨r2, h2, hle2⟩ := h12 b r h
  obtain ⟨r3, h3, hle3⟩ := h23 b r2 h2
  exact ⟨r3, h3, Nat.le_trans hle2 hle3⟩

/-- A `set_merged_revision` guarded by a failing `is_merged_from` never
lowers an entry: the guard's failure on an existing entry means the entry
is strictly below the new revision. -/
theorem set_guard_nd (st : mrevState) (b r : Nat)
    (hg : is_merged_from st b r = false) :
    entries_nondecreasing st.merged_revisions
      (set_merged_revision st b r).merged_revisions := by
  intro b2 r2 h2
  by_cases hb : b2 = b
  · subst hb
    refine ⟨r, alookup_aset_self st.merged_revisions b2 r, ?_⟩
    unfold is_merged_from at hg
    by_cases hbr : b2 = st.branch
    · simp [hbr] at hg
    · rw [if_neg hbr, h2] at hg
      have : ¬(r ≤ r2) := by simpa using hg
      omega
  · exact ⟨r2, by
      show alookup (aset st.merged_revisions b r) b2 = some r2
      rw [alookup_aset_ne st.merged_revisions b r b2 hb]
      exact h2, Nat.le_refl r2⟩

/-- The shared merge-in loop never lowers an entry of `merged_revisions`. -/
theorem merge_in_nd (mrevs : List (Nat × Nat)) :
    ∀ st : mrevState,
      entries_nondecreasing st.merged_revisions
        (merge_in_revisions st mrevs).merged_revisions := by
  induction mrevs with
  | nil => intro st; exact nd_refl _
  | cons e tl ih =>
    intro st
    have hstep : merge_in_revisions st (e :: tl)
        = merge_in_revisions
            (if is_merged_from st e.1 e.2 then st else set_merged_revision st e.1 e.2)
            tl := rfl
    rw [hstep]
    by_cases hg : is_merged_from st e.1 e.2 = true
    · rw [if_pos hg]
      exact ih st
    · have hg2 : is_merged_from st e.1 e.2 = false := by
        simpa using hg
      rw [if_neg hg]
      exact nd_trans (set_guard_nd st e.1 e.2 hg2) (ih (set_merged_revision st e.1 e.2))

/-- `merge_in_nd` with the starting map given explicitly (for goals where
the state is a structure literal whose map is the interesting one). -/
theorem merge_in_nd2 (mrevs : List (Nat × Nat)) (st : mrevState)
    (m : List (Nat × Nat)) (hm : st.merged_revisions = m) :
    entries_nondecreasing m (merge_in_revisions st mrevs).merged_revisions :=
  hm ▸ merge_in_nd mrevs st

/-- C7: along a branch chain the merged-revisions map never decreases: a
fresh stage shares `merged_revisions` with its predecessor, and the only
mutators, `add_parent_revision` and `process_parent_revisions` (both calling
`set_merged_revision` only under a failing `is_merged_from` guard), replace
an entry only with a strictly higher revision number. -/
theorem merged_revisions_monotone (s : mrevState) (a : addRevInfo) :
    entries_nondecreasing s.merged_revisions
      (add_parent_revision s a).merged_revisions
    ∧ entries_nondecreasing s.merged_revisions
      (process_parent_revisions s).merged_revisions := by
  constructor
  · unfold add_parent_revision
    split
    · exact nd_refl _
    · split
      · exact nd_refl _
      · split
        · exact merge_in_nd2 _ _ _ rfl
        · split
          · split
            · exact nd_refl _
            · exact merge_in_nd2 _ _ _ rfl
          · exact merge_in_nd2 _ _ _ rfl
  · unfold process_parent_revisions
    split
    · exact nd_refl _
    · exact merge_in_nd2 _ _ _ rfl

/-- The probe loop is a first-match search over the candidates it actually
visits: the starting name followed by one suffixed candidate per remaining
iteration. -/
theorem unique_loop_eq_find (tree : List (List (List Char))) (refname : List Char) :
    ∀ (fuel i : Nat) (new_ref : List Char),
      unique_loop tree refname new_ref i (fuel + 1)
        = (new_ref :: (List.range' i fuel).map (candName refname)).find?
            (fun c => !(get_node_full tree c)) := by
  intro fuel
  induction fuel with
  | zero =>
    intro i new_ref
    by_cases hr : get_node_full tree new_ref = true
    · simp [unique_loop, hr, List.find?]
    · simp [unique_loop, hr, List.find?]
  | succ n ih =>
    intro i new_ref
    by_cases hr : get_node_full tree new_ref = true
    · have hstep : unique_loop tree refname new_ref i (n + 1 + 1)
          = unique_loop tree refname (candName refname i) (i + 1) (n + 1) := by
        simp [unique_loop, hr]
      rw [hstep, ih (i + 1) (candName refname i)]
      rw [show List.range' i (n + 1) = i :: List.range' (i + 1) n from rfl]
      simp [List.find?, hr]
    · have hstep : unique_loop tree refname new_ref i (n + 1 + 1) = some new_ref := by
        simp [unique_loop, hr]
      rw [hstep]
      simp [List.find?, hr]

/-- C4 (amended): `make_unique_refname` probes 99 candidates — the base
name and `___1` … `___98` (the loop `for i in range(1, 100)` probes before
suffixing, so `___99` is assigned as a candidate but never probed) — and
returns the first whose full path is unregistered unless a registered path
claims a proper prefix of it (then it warns and returns null); it reports
failure after those 99 candidates all conflict, even when `___99` would
have been free. -/
theorem make_unique_refname_probes (tree : List (List (List Char)))
    (refname : List Char) (h : refname ≠ []) :
    make_unique_refname tree refname
      = match (probe_list refname).find? (fun c => !(get_node_full tree c)) with
        | none => none
        | some c => if interior_conflict tree c then none else some c := by
  unfold make_unique_refname
  rw [if_neg h]
  rw [show (99 : Nat) = 98 + 1 from rfl, unique_loop_eq_find tree refname 98 1 refname]
  rfl

/-- C4 witness: with nothing registered, the base name survives the probe
and is returned. -/
theorem make_unique_refname_probes_witness :
    make_unique_refname [] ("refs/heads/main".toList)
      = match (probe_list ("refs/heads/main".toList)).find?
            (fun c => !(get_node_full [] c)) with
        | none => none
        | some c => if interior_conflict [] c then none else some c :=
  make_unique_refname_probes [] ("refs/heads/main".toList) (by decide)

/-- C4 counterexample: with `a` and `a___1` … `a___98` registered the
resolver reports failure although `a___99` — which the claim says is
probed — is free; so failure is not reported "only after all of R, R___1,
…, R___99 conflict". -/
theorem make_unique_refname_cex :
    make_unique_refname cex_tree ("a".toList) = none
    ∧ get_node_full cex_tree (candName ("a".toList) 99) = false := by
  decide

/-- `commit_consistent` is decidable (used to discharge hypotheses on
concrete inputs). -/
instance commit_consistent_dec : DecidableRel commit_consistent := fun p q =>
  decidable_of_iff
    (p.commit.isSome = true → p.commit = q.commit →
      p.committed_git_tree = q.committed_git_tree)
    Iff.rfl

/-- Once the base revision has a non-empty committed git tree, the rest of
the parent scan keeps it. -/
theorem collect_base_stable (ps : List prev_info) :
    ∀ (acc : List (List Char)) (b : prev_info),
      b.committed_git_tree ≠ initial_git_tree →
      (List.foldl collectStep (acc, some b) ps).2 = some b := by
  induction ps with
  | nil => intro acc b _; rfl
  | cons p tl ih =>
    intro acc b hb
    rw [List.foldl_cons]
    cases hc : p.commit with
    | none =>
      have hstep : collectStep (acc, some b) p = (acc, some b) := by
        simp [collectStep, hc]
      rw [hstep]
      exact ih acc b hb
    | some c =>
      by_cases hmem : c ∈ acc
      · have hstep : collectStep (acc, some b) p = (acc, some b) := by
          simp [collectStep, hc, hmem]
        rw [hstep]
        exact ih acc b hb
      · have hstep : collectStep (acc, some b) p = (acc ++ [c], some b) := by
          simp [collectStep, hc, hmem, hb]
        rw [hstep]
        exact ih (acc ++ [c]) b hb

/-- Invariant induction for the parent scan: while the base is unset or
still on the empty tree and every collected commit stems from an
initial-tree parent (consistently so across the remaining parents), the
scan ends on the first qualifying parent. -/
theorem collect_base_first (p : prev_info) :
    ∀ (ps : List prev_info) (acc : List (List Char)) (bopt : Option prev_info),
      (∀ b, bopt = some b → b.committed_git_tree = initial_git_tree) →
      (∀ c ∈ acc, ∀ q ∈ ps, q.commit = some c →
        q.committed_git_tree = initial_git_tree) →
      List.Pairwise commit_consistent ps →
      ps.find? qualifies = some p →
      (List.foldl collectStep (acc, bopt) ps).2 = some p := by
  intro ps
  induction ps with
  | nil =>
    intro acc bopt _ _ _ hf
    exact absurd hf (by simp)
  | cons q tl ih =>
    intro acc bopt hbase hacc hpair hf
    rw [List.foldl_cons]
    rcases List.pairwise_cons.mp hpair with ⟨hq, hpair2⟩
    by_cases hqual : qualifies q = true
    · have hpq : q = p := by
        rw [List.find?_cons_of_pos _ hqual] at hf
        exact Option.some.inj hf
      have hq12 : q.commit.isSome = true ∧ q.committed_git_tree ≠ initial_git_tree := by
        simpa [qualifies] using hqual
      have hq2 : q.committed_git_tree ≠ initial_git_tree := hq12.2
      obtain ⟨c, hc⟩ := Option.isSome_iff_exists.mp hq12.1
      have hmem : c ∉ acc := by
        intro hmem
        exact hq2 (hacc c hmem q (List.mem_cons_self q tl) hc)
      have hstep : collectStep (acc, bopt) q = (acc ++ [c], some q) := by
        cases bopt with
        | none => simp [collectStep, hc, hmem]
        | some b => simp [collectStep, hc, hmem, hbase b rfl]
      rw [hstep]
      rw [collect_base_stable tl (acc ++ [c]) q hq2]
      rw [hpq]
    · have hf2 : tl.find? qualifies = some p := by
        rw [List.find?_cons_of_neg _ (by simpa using hqual)] at hf
        exact hf
      have haccrest : ∀ c ∈ acc, ∀ q2 ∈ tl, q2.commit = some c →
          q2.committed_git_tree = initial_git_tree :=
        fun c hcm q2 hq2 hq2c => hacc c hcm q2 (List.mem_cons_of_mem q hq2) hq2c
      cases hc : q.commit with
      | none =>
        have hstep : collectStep (acc, bopt) q = (acc, bopt) := by
          simp [collectStep, hc]
        rw [hstep]
        exact ih acc bopt hbase haccrest hpair2 hf2
      | some c =>
        have hqinit : q.committed_git_tree = initial_git_tree := by
          by_contra hne
          exact hqual (by simp [qualifies, hc, hne])
        by_cases hmem : c ∈ acc
        · have hstep : collectStep (acc, bopt) q = (acc, bopt) := by
            simp [collectStep, hc, hmem]
          rw [hstep]
          exact ih acc bopt hbase haccrest hpair2 hf2
        · have hstep : collectStep (acc, bopt) q = (acc ++ [c], some q) := by
            cases bopt with
            | none => simp [collectStep, hc, hmem]
            | some b => simp [collectStep, hc, hmem, hbase b rfl]
          rw [hstep]
          refine ih (acc ++ [c]) (some q) ?_ ?_ hpair2 hf2
          · intro b hb
            cases Option.some.inj hb
            exact hqinit
          · intro c2 hc2 q2 hq2 hq2c
            rcases List.mem_append.mp hc2 with hin | hin
            · exact haccrest c2 hin q2 hq2 hq2c
            · have hceq : c2 = c := by simpa using hin
              subst hceq
              have hcons := hq q2 hq2
              have heq : q.committed_git_tree = q2.committed_git_tree := by
                apply hcons
                · rw [hc]; rfl
                · rw [hc, hq2c]
              rw [← heq]
              exact hqinit

/-- C2: the base parent `make_commit` settles on is the first of the
revision's parents — in order, skipping parents without a commit — whose
committed git tree is non-empty; ties go to the earliest, as the scan never
replaces a base with a non-empty tree.  The pairwise-consistency hypothesis
(parents sharing a commit share its committed git tree) is an invariant of
the program: a revision's committed git tree is determined by its commit. -/
theorem base_parent_is_first_nonempty (parents : List prev_info) (p : prev_info)
    (hcons : List.Pairwise commit_consistent parents)
    (hfind : parents.find? qualifies = some p) :
    base_rev parents = some p :=
  collect_base_first p parents [] none
    (fun _ h => Option.noConfusion h)
    (fun c hc => absurd hc (List.not_mem_nil c))
    hcons hfind

/-- C2 witness: of a no-commit parent, an empty-tree parent and a non-empty
parent, the scan picks the non-empty one, the first qualifying. -/
theorem base_parent_is_first_nonempty_witness :
    base_rev [⟨none, initial_git_tree, none⟩,
        ⟨some ("c0".toList), initial_git_tree, none⟩,
        ⟨some ("c1".toList), "T1".toList, some 4⟩]
      = some ⟨some ("c1".toList), "T1".toList, some 4⟩ :=
  base_parent_is_first_nonempty
    [⟨none, initial_git_tree, none⟩,
      ⟨some ("c0".toList), initial_git_tree, none⟩,
      ⟨some ("c1".toList), "T1".toList, some 4⟩]
    ⟨some ("c1".toList), "T1".toList, some 4⟩ (by decide) (by decide)

/-- The parent scan's commit list is duplicate-free and collects exactly the
commits of the parents (on top of those already accumulated). -/
theorem collect_commits_spec (ps : List prev_info) :
    ∀ (acc : List (List Char)) (bopt : Option prev_info), acc.Nodup →
      (List.foldl collectStep (acc, bopt) ps).1.Nodup
      ∧ ∀ c, (c ∈ (List.foldl collectStep (acc, bopt) ps).1
          ↔ c ∈ acc ∨ c ∈ ps.filterMap prev_info.commit) := by
  induction ps with
  | nil =>
    intro acc bopt hnd
    exact ⟨hnd, by simp⟩
  | cons p tl ih =>
    intro acc bopt hnd
    rw [List.foldl_cons]
    cases hc : p.commit with
    | none =>
      have hstep : collectStep (acc, bopt) p = (acc, bopt) := by
        simp [collectStep, hc]
      rw [hstep]
      obtain ⟨h1, h2⟩ := ih acc bopt hnd
      refine ⟨h1, fun c => ?_⟩
      rw [h2 c]
      simp [List.filterMap_cons, hc]
    | some c0 =>
      by_cases hmem : c0 ∈ acc
      · have hstep : collectStep (acc, bopt) p = (acc, bopt) := by
          simp [collectStep, hc, hmem]
        rw [hstep]
        obtain ⟨h1, h2⟩ := ih acc bopt hnd
        refine ⟨h1, fun c => ?_⟩
        rw [h2 c]
        simp only [List.filterMap_cons, hc, List.mem_cons]
        constructor
        · rintro (h | h)
          · exact Or.inl h
          · exact Or.inr (Or.inr h)
        · rintro (h | h | h)
          · exact Or.inl h
          · subst h; exact Or.inl hmem
          · exact Or.inr h
      · have hfst : (collectStep (acc, bopt) p).1 = acc ++ [c0] := by
          cases bopt with
          | none => simp [collectStep, hc, hmem]
          | some b => simp [collectStep, hc, hmem]
        have hpair : collectStep (acc, bopt) p
            = (acc ++ [c0], (collectStep (acc, bopt) p).2) := by
          rw [← hfst]
        rw [hpair]
        have hnd2 : (acc ++ [c0]).Nodup := by
          simp [List.nodup_append, hnd, List.disjoint_singleton, hmem]
        obtain ⟨h1, h2⟩ := ih (acc ++ [c0]) (collectStep (acc, bopt) p).2 hnd2
        refine ⟨h1, fun c => ?_⟩
        rw [h2 c]
        simp only [List.filterMap_cons, hc, List.mem_cons, List.mem_append,
          List.mem_singleton]
        tauto

/-- The number of distinct parent commits the scan collects equals the
number of distinct commits among the parents. -/
theorem parent_commits_length (parents : List prev_info) :
    (parent_commits parents).length
      = ((parents.filterMap prev_info.commit).dedup).length := by
  obtain ⟨hnd, hmem⟩ := collect_commits_spec parents [] none List.nodup_nil
  have hnd1 : (parent_commits parents).Nodup := hnd
  have hmem1 : ∀ c, c ∈ parent_commits parents
      ↔ c ∈ ([] : List (List Char)) ∨ c ∈ parents.filterMap prev_info.commit := hmem
  have hnd2 : ((parents.filterMap prev_info.commit).dedup).Nodup :=
    List.nodup_dedup _
  have hseteq : (parent_commits parents).toFinset
      = ((parents.filterMap prev_info.commit).dedup).toFinset := by
    ext c
    simp only [List.mem_toFinset, List.mem_dedup]
    rw [hmem1 c]
    simp
  calc (parent_commits parents).length
      = (parent_commits parents).toFinset.card :=
        (List.toFinset_card_of_nodup hnd1).symm
    _ = ((parents.filterMap prev_info.commit).dedup).toFinset.card := by
        rw [hseteq]
    _ = ((parents.filterMap prev_info.commit).dedup).length :=
        List.toFinset_card_of_nodup hnd2

/-- C1: `make_commit` emits a commit exactly when the staged git tree
differs from the base parent's committed git tree (the empty tree when no
parent has a commit) or at least two distinct parent commits were
collected; when neither holds, no commit is made (`rev_commit` stays unset)
and the revision inherits the base parent's committed trees and commit. -/
theorem make_commit_emits_iff (staged : List Char) (tree : Option Nat)
    (parents : List prev_info) (new_sha : List Char) :
    ((make_commit_core staged tree parents new_sha).emitted = true
      ↔ (staged ≠ base_git_tree parents
          ∨ 2 ≤ ((parents.filterMap prev_info.commit).dedup).length))
    ∧ ((make_commit_core staged tree parents new_sha).emitted = false →
        (make_commit_core staged tree parents new_sha).committed_git_tree
            = base_git_tree parents
        ∧ (make_commit_core staged tree parents new_sha).commit
            = base_commit parents
        ∧ (make_commit_core staged tree parents new_sha).committed_tree
            = base_committed_tree parents
        ∧ (make_commit_core staged tree parents new_sha).rev_commit = none) := by
  have hlen := parent_commits_length parents
  by_cases hcond : staged ≠ base_git_tree parents
      ∨ 1 < (parent_commits parents).length
  · have hstep : make_commit_core staged tree parents new_sha
        = ⟨true, some new_sha, some new_sha, staged, tree⟩ := by
      unfold make_commit_core
      rw [if_pos hcond]
    rw [hstep]
    constructor
    · constructor
      · intro _
        rcases hcond with h | h
        · exact Or.inl h
        · right
          rw [← hlen]
          exact h
      · intro _
        rfl
    · intro hfalse
      exact absurd hfalse (by simp)
  · have hstep : make_commit_core staged tree parents new_sha
        = ⟨false, base_commit parents, none, base_git_tree parents,
            base_committed_tree parents⟩ := by
      unfold make_commit_core
      rw [if_neg hcond]
    rw [hstep]
    constructor
    · constructor
      · intro h
        exact absurd h (by simp)
      · intro h
        exfalso
        rcases h with h | h
        · exact hcond (Or.inl h)
        · refine hcond (Or.inr ?_)
          rw [hlen]
          exact h
    · intro _
      exact ⟨rfl, rfl, rfl, rfl⟩

/-- Membership through the stable insertion. -/
theorem mem_insertByRev (x y : cpRev) (l : List cpRev) :
    y ∈ insertByRev x l ↔ y = x ∨ y ∈ l := by
  induction l with
  | nil => simp [insertByRev]
  | cons z tl ih =>
    by_cases hz : z.rev ≤ x.rev
    · simp only [insertByRev, hz, if_true, List.mem_cons, ih]
      tauto
    · simp only [insertByRev, hz, if_false, List.mem_cons]

/-- Membership through the fold of stable insertions. -/
theorem mem_sort_fold (y : cpRev) (l : List cpRev) :
    ∀ acc, (y ∈ List.foldl (fun acc x => insertByRev x acc) acc l
      ↔ y ∈ acc ∨ y ∈ l) := by
  induction l with
  | nil => intro acc; simp
  | cons x tl ih =>
    intro acc
    rw [List.foldl_cons, ih (insertByRev x acc), mem_insertByRev]
    simp only [List.mem_cons]
    tauto

/-- Membership through the stable sort. -/
theorem mem_sortByRev (l : List cpRev) (y : cpRev) : y ∈ sortByRev l ↔ y ∈ l := by
  unfold sortByRev
  rw [mem_sort_fold]
  simp

/-- The filter loop of `get_cherrypick_str` raises `AttributeError` at the
first surviving source when every `change_id` slot is unset. -/
theorem cherrypickLoop_error (l : List cpRev) :
    ∀ (commits : List (List Char × cpRev)) (cid : Option (List Char)),
      (∀ r ∈ l, r.change_id = none) →
      (∃ r ∈ l, r.rev_commit.isSome = true ∧ r.merged = false) →
      cherrypickLoop l commits cid = .error attrErr := by
  induction l with
  | nil =>
    intro _ _ _ hs
    obtain ⟨r, hr, _⟩ := hs
    exact absurd hr (List.not_mem_nil r)
  | cons r tl ih =>
    intro commits cid hall hs
    have hallrest : ∀ r2 ∈ tl, r2.change_id = none :=
      fun r2 h => hall r2 (List.mem_cons_of_mem r h)
    cases hrc : r.rev_commit with
    | none =>
      have hstep : cherrypickLoop (r :: tl) commits cid
          = cherrypickLoop tl commits cid := by
        simp [cherrypickLoop, hrc]
      rw [hstep]
      apply ih commits cid hallrest
      obtain ⟨r2, hr2, hp⟩ := hs
      rcases List.mem_cons.mp hr2 with heq | hin
      · subst heq
        rw [hrc] at hp
        exact absurd hp.1 (by simp)
      · exact ⟨r2, hin, hp⟩
    | some rc =>
      by_cases hm : r.merged = true
      · have hstep : cherrypickLoop (r :: tl) commits cid
            = cherrypickLoop tl commits cid := by
          simp [cherrypickLoop, hrc, hm]
        rw [hstep]
        apply ih commits cid hallrest
        obtain ⟨r2, hr2, hp⟩ := hs
        rcases List.mem_cons.mp hr2 with heq | hin
        · subst heq
          exact absurd hm (by simp [hp.2])
        · exact ⟨r2, hin, hp⟩
      · have hcid : r.change_id = none := hall r (List.mem_cons_self r tl)
        simp [cherrypickLoop, hrc, hm, hcid]

/-- C6 (the code defect behind the claim): whenever the cherry-pick set has
a surviving source (a `rev_commit` and not already merged), the program —
in which no `change_id` slot is ever assigned, since
`project_branch_rev.__init__` does not initialize it and the only
assignment sits behind a read that raises first — raises `AttributeError`
inside `get_cherrypick_str` instead of producing the `Cherry-picked-from:`
footer the claim describes.  (The cherry-pick path already breaks earlier:
`apply_node` calls `branch.stage.add_dependency`, a method that does not
exist.) -/
theorem get_cherrypick_str_attribute_error (self_cid : Option (List Char))
    (revs : List cpRev)
    (hall : ∀ r ∈ revs, r.change_id = none)
    (hsurv : ∃ r ∈ revs, r.rev_commit.isSome = true ∧ r.merged = false) :
    get_cherrypick_str self_cid revs = .error attrErr := by
  have hall2 : ∀ r ∈ sortByRev revs, r.change_id = none :=
    fun r h => hall r ((mem_sortByRev revs r).mp h)
  have hsurv2 : ∃ r ∈ sortByRev revs, r.rev_commit.isSome = true ∧ r.merged = false := by
    obtain ⟨r, hr, hp⟩ := hsurv
    exact ⟨r, (mem_sortByRev revs r).mpr hr, hp⟩
  unfold get_cherrypick_str
  rw [cherrypickLoop_error (sortByRev revs) [] none hall2 hsurv2]

/-- C6 witness: the S5-style single cherry-pick source (made commit, not
merged) makes `get_cherrypick_str` raise. -/
theorem get_cherrypick_str_attribute_error_witness :
    get_cherrypick_str none
        [⟨2, some ("rc".toList), "c2".toList, none, false,
          "refs/heads/main".toList, "main".toList⟩]
      = .error attrErr :=
  get_cherrypick_str_attribute_error none
    [⟨2, some ("rc".toList), "c2".toList, none, false,
      "refs/heads/main".toList, "main".toList⟩]
    (by decide)
    ⟨⟨2, some ("rc".toList), "c2".toList, none, false,
      "refs/heads/main".toList, "main".toList⟩, by decide⟩

end hg2git
